import Mathlib

/-!
Verification of the conditional-execution helpers of `solid-whenever`
(`resolve`, `check`, `when`, `every`, `whenify`) against their
natural-language specification.

The JavaScript code is shallowly embedded: JS values become the inductive
type `JSVal` (numbers keep the special values `NaN`, `±Infinity`, `-0`
as explicit tags, finite numbers are integers — the only numeric values
the library distinguishes are zero-like vs. nonzero); side-effecting,
possibly-throwing computations become the state-exception monad
`M σ ε α = σ → Except ε (α × σ)`; a function-valued JS input is a
`JSVal.funcV id` reference whose behaviour is given by a function
environment `FEnv`.
-/

namespace SolidWhenever

/-- JS numbers, keeping exactly the distinctions the library's truthiness
    test can observe: `NaN`, `Infinity`, `-Infinity`, `-0`, and finite
    numbers (modelled as integers). -/
inductive JSNum where
  | nan
  | posInf
  | negInf
  | negZero
  | int (i : Int)
deriving Repr, DecidableEq

/-- JS runtime values. Objects, symbols and functions are references
    identified by a numeric id; arrays of values appear as `arr` (the
    result shape of `every`). -/
inductive JSVal where
  | undef
  | null
  | bool (b : Bool)
  | num (n : JSNum)
  | str (s : String)
  | bigintV (i : Int)
  | sym (id : Nat)
  | obj (id : Nat)
  | arr (elems : List JSVal)
  | funcV (id : Nat)
deriving Repr

/-- A computation over mutable world `σ` that may throw an error `ε`:
    the meaning of running a JS function body. -/
def M (σ ε α : Type) : Type := σ → Except ε (α × σ)

/-- The behaviour of function references: function id ↦ argument list ↦
    effectful computation of the returned value. -/
def FEnv (σ ε : Type) : Type := Nat → List JSVal → M σ ε JSVal

/-- `typeof v === 'function'`. -/
def isFunctionTy : JSVal → Bool
  | .funcV _ => true
  | _ => false

/-- Truthiness of a JS number: `NaN`, `-0` and `0` are falsy, every other
    number (including the infinities) is truthy. -/
def numTruthy : JSNum → Bool
  | .nan => false
  | .negZero => false
  | .posInf => true
  | .negInf => true
  | .int i => decide (i ≠ 0)

/-- JS boolean coercion: `false`, `0`, `-0`, `NaN`, `""`, `null`,
    `undefined` and `0n` are falsy; everything else (objects, arrays,
    symbols, functions, nonempty strings, nonzero numbers and bigints)
    is truthy. -/
def truthy : JSVal → Bool
  | .undef => false
  | .null => false
  | .bool b => b
  | .num n => numTruthy n
  | .str s => decide (s ≠ "")
  | .bigintV i => decide (i ≠ 0)
  | .sym _ => true
  | .obj _ => true
  | .arr _ => true
  | .funcV _ => true

/-- `function resolve(value) { return typeof value !== 'function' ? value
    : value() }` — a non-function input is its own value, a function input
    is invoked with zero arguments. -/
def resolve {σ ε : Type} (env : FEnv σ ε) (value : JSVal) : M σ ε JSVal :=
  fun s =>
    match value with
    | .funcV id => env id [] s
    | v => .ok (v, s)

/-- `check(accessor, callback, fallback?)`:
    `const value = resolve(accessor); return value ? callback(value) :
    fallback ? fallback() : undefined`. The callback is a JS function of
    one argument; the fallback, when present, takes no arguments. -/
def check {σ ε : Type} (env : FEnv σ ε) (accessor : JSVal)
    (callback : JSVal → M σ ε JSVal) (fallback : Option (M σ ε JSVal)) :
    M σ ε JSVal :=
  fun s =>
    match resolve env accessor s with
    | .error e => .error e
    | .ok (value, s₁) =>
      if truthy value then callback value s₁
      else
        match fallback with
        | some fb => fb s₁
        | none => .ok (.undef, s₁)

/-- `when(accessor, callback, fallback?)` returns the gated function
    `(...args) => check(accessor, value => callback(value, ...args),
    fallback ? () => fallback(...args) : undefined)`. The callback and
    fallback are variadic JS functions, modelled on argument lists. -/
def when {σ ε : Type} (env : FEnv σ ε) (accessor : JSVal)
    (callback : List JSVal → M σ ε JSVal)
    (fallback : Option (List JSVal → M σ ε JSVal)) :
    List JSVal → M σ ε JSVal :=
  fun args =>
    check env accessor (fun value => callback (value :: args))
      (fallback.map (fun fb => fb args))

/-- The loop body of `every`'s returned producer: walk the accessors left
    to right, resolving each; on the first falsy resolved value return
    `undefined` at once, otherwise accumulate the value and continue;
    when the list is exhausted return the array of collected values. -/
def everyLoop {σ ε : Type} (env : FEnv σ ε) :
    List JSVal → List JSVal → σ → Except ε (JSVal × σ)
  | [], values, s => .ok (.arr values.reverse, s)
  | a :: rest, values, s =>
    match resolve env a s with
    | .error e => .error e
    | .ok (v, s₁) =>
      if truthy v = false then .ok (.undef, s₁)
      else everyLoop env rest (v :: values) s₁

/-- `every(...accessors)` returns a producer; each call of the producer
    runs the loop afresh from the current world. -/
def every {σ ε : Type} (env : FEnv σ ε) (accessors : List JSVal) :
    M σ ε JSVal :=
  fun s => everyLoop env accessors [] s

/-- `whenify(fn) = (accessor, callback, fallback) =>
    fn(when(accessor, callback, fallback))`: build the gated compute
    function and hand it to the wrapped constructor. -/
def whenify {σ ε ρ : Type} (env : FEnv σ ε)
    (fn : (List JSVal → M σ ε JSVal) → ρ) (accessor : JSVal)
    (callback : List JSVal → M σ ε JSVal)
    (fallback : Option (List JSVal → M σ ε JSVal)) : ρ :=
  fn (when env accessor callback fallback)

/-- Sequential resolution of a list of accessors, threading the world and
    propagating the first error; used to state what `every` computes. -/
def seqResolve {σ ε : Type} (env : FEnv σ ε) :
    List JSVal → σ → Except ε (List JSVal × σ)
  | [], s => .ok ([], s)
  | a :: rest, s =>
    match resolve env a s with
    | .error e => .error e
    | .ok (v, s₁) =>
      match seqResolve env rest s₁ with
      | .error e => .error e
      | .ok (vs, s₂) => .ok (v :: vs, s₂)

/-- Modelled from the spec: the host's memo-like reactive primitive
    (solid-js `createMemo`, an external collaborator not in this
    repository). The scheduler re-invokes the compute function once per
    tick, each tick seeing the world `σ` of that moment, and delivers the
    prior invocation's return value as the compute function's argument on
    the next invocation. `hostMemoTrace compute prev ss` records, for each
    tick state in `ss`, the pair (previous value supplied, result
    produced); an uncaught error aborts the run. -/
def hostMemoTrace {σ ε : Type} (compute : JSVal → M σ ε JSVal) :
    JSVal → List σ → Except ε (List (JSVal × JSVal))
  | _, [] => .ok []
  | prev, s :: rest =>
    match compute prev s with
    | .error e => .error e
    | .ok (r, _) =>
      match hostMemoTrace compute r rest with
      | .error e => .error e
      | .ok tr => .ok ((prev, r) :: tr)

/-- Modelled from the spec: `createMemo` as a computation constructor. It
    takes the zero-or-one-argument compute function, supplies `undefined`
    as the previous value on the first invocation (the host's own
    initial-value convention), and threads each return value into the next
    invocation. Applying it to the gated function of `when`/`whenify`
    yields the adapter's observable invocation trace. -/
def createMemoModel {σ ε : Type} (ss : List σ)
    (compute : List JSVal → M σ ε JSVal) : Except ε (List (JSVal × JSVal)) :=
  hostMemoTrace (fun prev => compute [prev]) JSVal.undef ss

/-- A trivial function environment over the unit world: every function
    reference returns `undefined`. Used to instantiate theorems at
    concrete inputs. -/
def envU : FEnv Unit Unit := fun _ _ s => .ok (.undef, s)

/-- A function environment in which function reference 0 is a producer
    that returns another function (reference 1). -/
def envFnProd : FEnv Unit Unit :=
  fun id _ s => if id = 0 then .ok (.funcV 1, s) else .ok (.undef, s)

/-- The falsy JS values are exactly `undefined`, `null`, `false`, `NaN`,
    `-0`, `0`, `""` and `0n`. -/
theorem truthy_eq_false_iff (v : JSVal) :
    truthy v = false ↔
      (v = .undef ∨ v = .null ∨ v = .bool false ∨ v = .num .nan ∨
       v = .num .negZero ∨ v = .num (.int 0) ∨ v = .str "" ∨
       v = .bigintV 0) := by
  cases v with
  | num n => cases n <;> simp [truthy, numTruthy]
  | bool b => cases b <;> simp [truthy]
  | _ => simp [truthy]

/-- Claim C1: with no fallback, `check` returns the absent marker
    (`undefined`) on a falsy resolved value without consulting the
    callback, invokes the callback exactly once with the resolved value
    and returns its result on a truthy resolved value, runs the fallback
    alone on a falsy value when one is supplied, and the falsy
    classification is exactly the JS falsy set. -/
theorem check_truthiness_dispatch {σ ε : Type} (env : FEnv σ ε)
    (accessor : JSVal) (s s₁ : σ) (v : JSVal)
    (hres : resolve env accessor s = .ok (v, s₁)) :
    (truthy v = false →
      ∀ cb : JSVal → M σ ε JSVal, check env accessor cb none s = .ok (.undef, s₁))
  ∧ (truthy v = true →
      ∀ (cb : JSVal → M σ ε JSVal) (fb : Option (M σ ε JSVal)),
        check env accessor cb fb s = cb v s₁)
  ∧ (truthy v = false →
      ∀ (cb : JSVal → M σ ε JSVal) (f : M σ ε JSVal),
        check env accessor cb (some f) s = f s₁)
  ∧ (truthy v = false ↔
      (v = .undef ∨ v = .null ∨ v = .bool false ∨ v = .num .nan ∨
       v = .num .negZero ∨ v = .num (.int 0) ∨ v = .str "" ∨
       v = .bigintV 0)) := by
  refine ⟨?_, ?_, ?_, truthy_eq_false_iff v⟩
  · intro hf cb
    simp [check, hres, hf]
  · intro ht cb fb
    simp [check, hres, ht]
  · intro hf cb f
    simp [check, hres, hf]

/-- Witness for C1 at concrete inputs: `check(5, cb)` runs the callback
    on 5, `check(0, cb)` returns `undefined`, and `check(0, cb, fb)` runs
    the fallback. -/
theorem check_truthiness_dispatch_witness :
    check envU (JSVal.num (.int 5)) (fun v s => .ok (.arr [v], s)) none ()
      = .ok (.arr [JSVal.num (.int 5)], ())
  ∧ check envU (JSVal.num (.int 0)) (fun v s => .ok (.arr [v], s)) none ()
      = .ok (.undef, ())
  ∧ check envU (JSVal.num (.int 0)) (fun v s => .ok (.arr [v], s))
      (some (fun s => .ok (.str "fb", s))) () = .ok (.str "fb", ()) := by
  have h5 := check_truthiness_dispatch envU (JSVal.num (.int 5)) () ()
    (JSVal.num (.int 5)) rfl
  have h0 := check_truthiness_dispatch envU (JSVal.num (.int 0)) () ()
    (JSVal.num (.int 0)) rfl
  exact ⟨h5.2.1 (by decide) _ _, h0.1 (by decide) _, h0.2.2.1 (by decide) _ _⟩

/-- Claim C2: the gated function of `when` performs, on each call and from
    the current world, exactly
    `check(accessor, v => callback(v, ...args), fallback ? () =>
    fallback(...args) : undefined)`: the truthy branch receives the
    resolved value followed by the call-time arguments in order, the
    fallback branch receives exactly the call-time arguments, and a
    missing fallback yields the absent marker. -/
theorem when_gate_forwards_args {σ ε : Type} (env : FEnv σ ε)
    (accessor : JSVal) (cb : List JSVal → M σ ε JSVal)
    (fb : Option (List JSVal → M σ ε JSVal)) (args : List JSVal) (s : σ) :
    when env accessor cb fb args s
      = check env accessor (fun v => cb (v :: args))
          (fb.map (fun f => f args)) s
  ∧ (∀ v s₁, resolve env accessor s = .ok (v, s₁) →
      (truthy v = true → when env accessor cb fb args s = cb (v :: args) s₁)
    ∧ (truthy v = false → ∀ f, fb = some f →
        when env accessor cb fb args s = f args s₁)
    ∧ (truthy v = false → fb = none →
        when env accessor cb fb args s = .ok (.undef, s₁))) := by
  refine ⟨rfl, ?_⟩
  intro v s₁ hres
  refine ⟨?_, ?_, ?_⟩
  · intro ht
    simp [when, check, hres, ht]
  · intro hf f hfb
    subst hfb
    simp [when, check, hres, hf]
  · intro hf hfb
    subst hfb
    simp [when, check, hres, hf]

/-- Witness for C2 at concrete inputs: the truthy branch of the gated
    function receives the resolved value consed onto the extra arguments
    in the given order, and the fallback branch receives exactly the
    extra arguments. -/
theorem when_gate_forwards_args_witness :
    when envU (JSVal.str "a") (fun l s => .ok (.arr l, s)) none
      [JSVal.num (.int 2), JSVal.num (.int 3)] ()
      = .ok (.arr [JSVal.str "a", JSVal.num (.int 2), JSVal.num (.int 3)], ())
  ∧ when envU JSVal.null (fun l s => .ok (.arr l, s))
      (some (fun l s => .ok (.arr l, s))) [JSVal.num (.int 2)] ()
      = .ok (.arr [JSVal.num (.int 2)], ()) := by
  have ht := (when_gate_forwards_args envU (JSVal.str "a")
    (fun l s => .ok (.arr l, s)) none
    [JSVal.num (.int 2), JSVal.num (.int 3)] ()).2 (JSVal.str "a") () rfl
  have hf := (when_gate_forwards_args envU JSVal.null
    (fun l s => .ok (.arr l, s)) (some (fun l s => .ok (.arr l, s)))
    [JSVal.num (.int 2)] ()).2 JSVal.null () rfl
  exact ⟨ht.1 (by decide), hf.2.1 (by decide) _ rfl⟩

/-- Claim C5: `whenify(fn)(accessor, callback, fallback)` is exactly
    `fn(when(accessor, callback, fallback))` — it builds the gated
    compute function, passes it to `fn` once, and returns `fn`'s result,
    with no effects of its own. -/
theorem whenify_is_fn_of_when {σ ε ρ : Type} (env : FEnv σ ε)
    (fn : (List JSVal → M σ ε JSVal) → ρ) (accessor : JSVal)
    (cb : List JSVal → M σ ε JSVal)
    (fb : Option (List JSVal → M σ ε JSVal)) :
    whenify env fn accessor cb fb = fn (when env accessor cb fb) := rfl

/-- Counterexample to claim C9's universal clause: a producer may return
    a function, and that function then IS the checked/gated value —
    `check` passes `funcV 1` (for which `typeof` is `'function'`) to the
    callback. -/
theorem function_as_gated_value_counterexample :
    check envFnProd (JSVal.funcV 0) (fun v s => .ok (.arr [v], s)) none ()
      = .ok (.arr [JSVal.funcV 1], ())
  ∧ isFunctionTy (JSVal.funcV 1) = true := ⟨rfl, rfl⟩

/-- Claim C9 (amended): an input with `typeof === 'function'` is always
    invoked as a zero-argument producer and `check` gates on the call's
    result — the function input itself is never the gated value — while a
    non-function input is its own resolved value; a function can still
    become the gated value when a producer returns one, since resolution
    is not recursive. -/
theorem resolve_invokes_function_inputs {σ ε : Type} (env : FEnv σ ε)
    (s : σ) :
    (∀ id, resolve env (JSVal.funcV id) s = env id [] s)
  ∧ (∀ v, isFunctionTy v = false → resolve env v s = .ok (v, s))
  ∧ (∀ (id : Nat) (cb : JSVal → M σ ε JSVal) (fb : Option (M σ ε JSVal)),
      check env (JSVal.funcV id) cb fb s =
        match env id [] s with
        | .error e => .error e
        | .ok (v, s₁) =>
          if truthy v then cb v s₁
          else match fb with
            | some f => f s₁
            | none => .ok (.undef, s₁)) := by
  refine ⟨fun id => rfl, ?_, fun id cb fb => rfl⟩
  intro v hv
  cases v <;> simp_all [resolve, isFunctionTy]

/-- Witness for amended C9 at concrete inputs: a string input resolves to
    itself, a function input is invoked. -/
theorem resolve_invokes_function_inputs_witness :
    resolve envU (JSVal.str "f") () = .ok (.str "f", ())
  ∧ resolve envFnProd (JSVal.funcV 0) () = .ok (.funcV 1, ()) := by
  exact ⟨(resolve_invokes_function_inputs envU ()).2.1 (JSVal.str "f") rfl,
    (resolve_invokes_function_inputs envFnProd ()).1 0⟩

/-- If the whole accessor list resolves without error, the resolved list
    has one value per accessor. -/
theorem seqResolve_length {σ ε : Type} (env : FEnv σ ε) :
    ∀ (accs : List JSVal) (s : σ) (vs : List JSVal) (s₁ : σ),
      seqResolve env accs s = .ok (vs, s₁) → vs.length = accs.length := by
  intro accs
  induction accs with
  | nil =>
    intro s vs s₁ h
    simp only [seqResolve, Except.ok.injEq, Prod.mk.injEq] at h
    simp [← h.1]
  | cons a rest ih =>
    intro s vs s₁ h
    simp only [seqResolve] at h
    cases hr : resolve env a s with
    | error e => rw [hr] at h; simp at h
    | ok p =>
      obtain ⟨v, s₂⟩ := p
      rw [hr] at h
      dsimp only at h
      cases hq : seqResolve env rest s₂ with
      | error e => rw [hq] at h; simp at h
      | ok q =>
        obtain ⟨ws, s₃⟩ := q
        rw [hq] at h
        simp only [Except.ok.injEq, Prod.mk.injEq] at h
        rw [← h.1]
        simp [ih s₂ ws s₃ hq]

/-- Soundness of the loop of `every`: an array result means every
    accessor was resolved in order, every resolved value was truthy, and
    the output is the accumulator followed by the resolved values. -/
theorem everyLoop_arr_sound {σ ε : Type} (env : FEnv σ ε) :
    ∀ (accs acc : List JSVal) (s : σ) (out : List JSVal) (s₁ : σ),
      everyLoop env accs acc s = .ok (.arr out, s₁) →
      ∃ vs, seqResolve env accs s = .ok (vs, s₁) ∧
        (∀ v ∈ vs, truthy v = true) ∧ out = acc.reverse ++ vs := by
  intro accs
  induction accs with
  | nil =>
    intro acc s out s₁ h
    simp only [everyLoop, Except.ok.injEq, Prod.mk.injEq, JSVal.arr.injEq] at h
    refine ⟨[], ?_, by simp, by simp [← h.1]⟩
    rw [← h.2]
    rfl
  | cons a rest ih =>
    intro acc s out s₁ h
    simp only [everyLoop] at h
    cases hr : resolve env a s with
    | error e => rw [hr] at h; simp at h
    | ok p =>
      obtain ⟨v, s₂⟩ := p
      rw [hr] at h
      dsimp only at h
      by_cases hv : truthy v = false
      · rw [if_pos hv] at h
        simp at h
      · rw [if_neg hv] at h
        obtain ⟨vs, hseq, htru, hout⟩ := ih (v :: acc) s₂ out s₁ h
        have hv' : truthy v = true := by
          cases hb : truthy v
          · exact absurd hb hv
          · rfl
        refine ⟨v :: vs, ?_, ?_, ?_⟩
        · simp only [seqResolve]
          rw [hr]
          dsimp only
          rw [hseq]
        · intro u hu
          rcases List.mem_cons.mp hu with h1 | h1
          · rw [h1]; exact hv'
          · exact htru u h1
        · rw [hout]
          simp

/-- Completeness of the loop of `every`: if every accessor resolves
    truthy, the loop returns the array of the accumulator followed by the
    resolved values, in order. -/
theorem everyLoop_arr_complete {σ ε : Type} (env : FEnv σ ε) :
    ∀ (accs acc : List JSVal) (s : σ) (vs : List JSVal) (s₁ : σ),
      seqResolve env accs s = .ok (vs, s₁) → (∀ v ∈ vs, truthy v = true) →
      everyLoop env accs acc s = .ok (.arr (acc.reverse ++ vs), s₁) := by
  intro accs
  induction accs with
  | nil =>
    intro acc s vs s₁ h htru
    simp only [seqResolve, Except.ok.injEq, Prod.mk.injEq] at h
    rw [everyLoop, ← h.1, h.2]
    simp
  | cons a rest ih =>
    intro acc s vs s₁ h htru
    simp only [seqResolve] at h
    cases hr : resolve env a s with
    | error e => rw [hr] at h; simp at h
    | ok p =>
      obtain ⟨v, s₂⟩ := p
      rw [hr] at h
      dsimp only at h
      cases hq : seqResolve env rest s₂ with
      | error e => rw [hq] at h; simp at h
      | ok q =>
        obtain ⟨ws, s₃⟩ := q
        rw [hq] at h
        simp only [Except.ok.injEq, Prod.mk.injEq] at h
        obtain ⟨h1, h2⟩ := h
        have hv : truthy v = true := by
          apply htru; rw [← h1]; exact List.mem_cons_self v ws
        have hws : ∀ u ∈ ws, truthy u = true := by
          intro u hu; apply htru; rw [← h1]; exact List.mem_cons_of_mem v hu
        simp only [everyLoop]
        rw [hr]
        dsimp only
        rw [if_neg (by simp [hv])]
        rw [ih (v :: acc) s₂ ws s₃ hq hws, ← h1, h2]
        simp

/-- The loop of `every` only ever returns an array or `undefined`. -/
theorem everyLoop_shape {σ ε : Type} (env : FEnv σ ε) :
    ∀ (accs acc : List JSVal) (s : σ) (r : JSVal) (s₁ : σ),
      everyLoop env accs acc s = .ok (r, s₁) →
      (∃ out, r = .arr out) ∨ r = .undef := by
  intro accs
  induction accs with
  | nil =>
    intro acc s r s₁ h
    simp only [everyLoop, Except.ok.injEq, Prod.mk.injEq] at h
    exact Or.inl ⟨acc.reverse, h.1.symm⟩
  | cons a rest ih =>
    intro acc s r s₁ h
    simp only [everyLoop] at h
    cases hr : resolve env a s with
    | error e => rw [hr] at h; simp at h
    | ok p =>
      obtain ⟨v, s₂⟩ := p
      rw [hr] at h
      dsimp only at h
      by_cases hv : truthy v = false
      · rw [if_pos hv] at h
        simp only [Except.ok.injEq, Prod.mk.injEq] at h
        exact Or.inr h.1.symm
      · rw [if_neg hv] at h
        exact ih (v :: acc) s₂ r s₁ h

/-- After a prefix that resolves all-truthy, the loop of `every`
    continues on the remaining accessors with the resolved prefix in the
    accumulator. -/
theorem everyLoop_append {σ ε : Type} (env : FEnv σ ε) :
    ∀ (pre xs acc : List JSVal) (s : σ) (vs : List JSVal) (s₁ : σ),
      seqResolve env pre s = .ok (vs, s₁) → (∀ v ∈ vs, truthy v = true) →
      everyLoop env (pre ++ xs) acc s = everyLoop env xs (vs.reverse ++ acc) s₁ := by
  intro pre
  induction pre with
  | nil =>
    intro xs acc s vs s₁ h htru
    simp only [seqResolve, Except.ok.injEq, Prod.mk.injEq] at h
    rw [← h.1, h.2]
    simp
  | cons a rest ih =>
    intro xs acc s vs s₁ h htru
    simp only [seqResolve] at h
    cases hr : resolve env a s with
    | error e => rw [hr] at h; simp at h
    | ok p =>
      obtain ⟨v, s₂⟩ := p
      rw [hr] at h
      dsimp only at h
      cases hq : seqResolve env rest s₂ with
      | error e => rw [hq] at h; simp at h
      | ok q =>
        obtain ⟨ws, s₃⟩ := q
        rw [hq] at h
        simp only [Except.ok.injEq, Prod.mk.injEq] at h
        obtain ⟨h1, h2⟩ := h
        have hv : truthy v = true := by
          apply htru; rw [← h1]; exact List.mem_cons_self v ws
        have hws : ∀ u ∈ ws, truthy u = true := by
          intro u hu; apply htru; rw [← h1]; exact List.mem_cons_of_mem v hu
        have hcons : everyLoop env ((a :: rest) ++ xs) acc s
            = everyLoop env (rest ++ xs) (v :: acc) s₂ := by
          simp only [List.cons_append, everyLoop]
          rw [hr]
          dsimp only
          rw [if_neg (by simp [hv])]
          rfl
        rw [hcons, ih xs (v :: acc) s₂ ws s₃ hq hws, ← h1, h2]
        simp

/-- Claim C3: on each call the producer of `every` returns the ordered
    array of the resolved values (one per input, in input order, with the
    resolved values themselves) exactly when every input resolves truthy;
    any non-error result is either a full-length array or the absent
    marker `undefined`; and with zero inputs it returns the empty array,
    not the absent marker. -/
theorem every_conjunction {σ ε : Type} (env : FEnv σ ε)
    (accs : List JSVal) (s : σ) :
    (∀ vs s₁, every env accs s = .ok (.arr vs, s₁) ↔
        (seqResolve env accs s = .ok (vs, s₁) ∧ ∀ v ∈ vs, truthy v = true))
  ∧ (∀ r s₁, every env accs s = .ok (r, s₁) →
        (∃ vs, r = .arr vs ∧ vs.length = accs.length) ∨ r = .undef)
  ∧ every env ([] : List JSVal) s = .ok (.arr [], s) := by
  refine ⟨?_, ?_, rfl⟩
  · intro vs s₁
    constructor
    · intro h
      obtain ⟨ws, hseq, htru, hout⟩ := everyLoop_arr_sound env accs [] s vs s₁ h
      simp only [List.reverse_nil, List.nil_append] at hout
      rw [hout]
      exact ⟨hseq, htru⟩
    · intro ⟨hseq, htru⟩
      have := everyLoop_arr_complete env accs [] s vs s₁ hseq htru
      simpa [every] using this
  · intro r s₁ h
    rcases everyLoop_shape env accs [] s r s₁ h with ⟨out, rfl⟩ | h1
    · left
      refine ⟨out, rfl, ?_⟩
      obtain ⟨ws, hseq, htru, hout⟩ := everyLoop_arr_sound env accs [] s out s₁ h
      simp only [List.reverse_nil, List.nil_append] at hout
      rw [hout]
      exact seqResolve_length env accs s ws s₁ hseq
    · exact Or.inr h1

/-- Witness for C3 at concrete inputs: `every(1, "a", {})()` returns
    `[1, "a", {}]`, and `every()` returns the empty array. -/
theorem every_conjunction_witness :
    every envU [JSVal.num (.int 1), JSVal.str "a", JSVal.obj 0] ()
      = .ok (.arr [JSVal.num (.int 1), JSVal.str "a", JSVal.obj 0], ())
  ∧ every envU ([] : List JSVal) () = .ok (.arr [], ()) := by
  constructor
  · apply ((every_conjunction envU
      [JSVal.num (.int 1), JSVal.str "a", JSVal.obj 0] ()).1 _ ()).mpr
    refine ⟨rfl, ?_⟩
    intro u hu
    simp only [List.mem_cons, List.not_mem_nil, or_false] at hu
    rcases hu with rfl | rfl | rfl <;> rfl
  · exact (every_conjunction envU [] ()).2.2

/-- Claim C4: `every` resolves left to right and short-circuits — once a
    truthy prefix is followed by a falsy resolved value, the producer
    returns the absent marker with the world exactly as it was after that
    falsy resolution, for every possible continuation of the input list
    (so no later input is ever resolved on that call). -/
theorem every_short_circuits {σ ε : Type} (env : FEnv σ ε)
    (pre : List JSVal) (a : JSVal) (s : σ) (vs : List JSVal) (s₁ : σ)
    (v : JSVal) (s₂ : σ)
    (hpre : seqResolve env pre s = .ok (vs, s₁))
    (htru : ∀ u ∈ vs, truthy u = true)
    (hres : resolve env a s₁ = .ok (v, s₂)) (hv : truthy v = false) :
    ∀ rest : List JSVal, every env (pre ++ a :: rest) s = .ok (.undef, s₂) := by
  intro rest
  show everyLoop env (pre ++ a :: rest) [] s = .ok (.undef, s₂)
  rw [everyLoop_append env pre (a :: rest) [] s vs s₁ hpre htru]
  simp only [everyLoop]
  rw [hres]
  dsimp only
  rw [if_pos hv]

/-- A world-counting environment: every function reference invocation
    increments a counter and returns `true`. Used to observe which
    producers actually run. -/
def envCount : FEnv Nat Unit := fun _ _ n => .ok (.bool true, n + 1)

/-- Witness for C4 at a concrete input: with a falsy literal at index 1,
    `every` returns `undefined` and the producer at index 2 is never
    invoked — the invocation counter stays at 0. -/
theorem every_short_circuits_witness :
    every envCount [JSVal.bool true, JSVal.null, JSVal.funcV 0] 0
      = .ok (.undef, 0) := by
  have h := every_short_circuits envCount [JSVal.bool true] JSVal.null 0
    [JSVal.bool true] 0 JSVal.null 0 rfl
    (by intro u hu; simp only [List.mem_singleton] at hu; rw [hu]; rfl)
    rfl rfl [JSVal.funcV 0]
  simpa using h

/-- An environment in which every function reference throws error 7. -/
def envThrow : FEnv Unit Nat := fun _ _ _ => .error 7

/-- Claim C6: every layer is error-transparent. An error thrown while
    resolving the input propagates unchanged out of `check` and out of the
    gated function of `when` (the callback is never consulted); an error
    thrown by the callback or the fallback propagates unchanged out of
    `check`; an error thrown while resolving an input of `every` (after a
    truthy prefix) propagates unchanged out of the producer, which
    therefore never returns a partially-filled tuple — every array it
    returns has exactly one element per input. -/
theorem error_transparency {σ ε : Type} (env : FEnv σ ε) :
    (∀ (accessor : JSVal) (cb : JSVal → M σ ε JSVal)
        (fb : Option (M σ ε JSVal)) (s : σ) (e : ε),
        resolve env accessor s = .error e → check env accessor cb fb s = .error e)
  ∧ (∀ (accessor : JSVal) (cb : JSVal → M σ ε JSVal)
        (fb : Option (M σ ε JSVal)) (s : σ) (v : JSVal) (s₁ : σ) (e : ε),
        resolve env accessor s = .ok (v, s₁) → truthy v = true →
        cb v s₁ = .error e → check env accessor cb fb s = .error e)
  ∧ (∀ (accessor : JSVal) (cb : JSVal → M σ ε JSVal) (f : M σ ε JSVal)
        (s : σ) (v : JSVal) (s₁ : σ) (e : ε),
        resolve env accessor s = .ok (v, s₁) → truthy v = false →
        f s₁ = .error e → check env accessor cb (some f) s = .error e)
  ∧ (∀ (accessor : JSVal) (cbw : List JSVal → M σ ε JSVal)
        (fbw : Option (List JSVal → M σ ε JSVal)) (args : List JSVal)
        (s : σ) (e : ε),
        resolve env accessor s = .error e →
        when env accessor cbw fbw args s = .error e)
  ∧ (∀ (pre : List JSVal) (a : JSVal) (rest : List JSVal) (s : σ)
        (vs : List JSVal) (s₁ : σ) (e : ε),
        seqResolve env pre s = .ok (vs, s₁) → (∀ u ∈ vs, truthy u = true) →
        resolve env a s₁ = .error e →
        every env (pre ++ a :: rest) s = .error e)
  ∧ (∀ (accs : List JSVal) (s : σ) (vs : List JSVal) (s₁ : σ),
        every env accs s = .ok (.arr vs, s₁) → vs.length = accs.length) := by
  refine ⟨?_, ?_, ?_, ?_, ?_, ?_⟩
  · intro accessor cb fb s e h
    simp [check, h]
  · intro accessor cb fb s v s₁ e hres ht hcb
    simp [check, hres, ht, hcb]
  · intro accessor cb f s v s₁ e hres hv hf
    simp [check, hres, hv, hf]
  · intro accessor cbw fbw args s e h
    simp [when, check, h]
  · intro pre a rest s vs s₁ e hpre htru hres
    show everyLoop env (pre ++ a :: rest) [] s = .error e
    rw [everyLoop_append env pre (a :: rest) [] s vs s₁ hpre htru]
    simp only [everyLoop]
    rw [hres]
  · intro accs s vs s₁ h
    obtain ⟨ws, hseq, htru, hout⟩ := everyLoop_arr_sound env accs [] s vs s₁ h
    simp only [List.reverse_nil, List.nil_append] at hout
    rw [hout]
    exact seqResolve_length env accs s ws s₁ hseq

/-- Witness for C6 at concrete inputs: a throwing producer makes `check`,
    the gated function of `when`, and `every` (after a truthy prefix) all
    surface error 7 unchanged. -/
theorem error_transparency_witness :
    check envThrow (JSVal.funcV 0) (fun v s => .ok (v, s)) none () = .error 7
  ∧ when envThrow (JSVal.funcV 0) (fun l s => .ok (.arr l, s)) none [] ()
      = .error 7
  ∧ every envThrow [JSVal.bool true, JSVal.funcV 0] () = .error 7 := by
  have h := error_transparency envThrow
  refine ⟨h.1 (JSVal.funcV 0) _ none () 7 rfl,
    h.2.2.2.1 (JSVal.funcV 0) _ none [] () 7 rfl, ?_⟩
  have h5 := h.2.2.2.2.1 [JSVal.bool true] (JSVal.funcV 0) [] ()
    [JSVal.bool true] () 7 rfl
    (by intro u hu; simp only [List.mem_singleton] at hu; rw [hu]; rfl) rfl
  simpa using h5

/-- A successful host run has one trace entry per scheduler tick. -/
theorem hostMemoTrace_length {σ ε : Type} (compute : JSVal → M σ ε JSVal) :
    ∀ (ss : List σ) (prev : JSVal) (tr : List (JSVal × JSVal)),
      hostMemoTrace compute prev ss = .ok tr → tr.length = ss.length := by
  intro ss
  induction ss with
  | nil =>
    intro prev tr h
    simp only [hostMemoTrace, Except.ok.injEq] at h
    simp [← h]
  | cons s rest ih =>
    intro prev tr h
    simp only [hostMemoTrace] at h
    cases hc : compute prev s with
    | error e => rw [hc] at h; simp at h
    | ok p =>
      obtain ⟨r, s₁⟩ := p
      rw [hc] at h
      dsimp only at h
      cases hq : hostMemoTrace compute r rest with
      | error e => rw [hq] at h; simp at h
      | ok tr₁ =>
        rw [hq] at h
        simp only [Except.ok.injEq] at h
        rw [← h]
        simp [ih r tr₁ hq]

/-- The first trace entry records the initial previous value. -/
theorem hostMemoTrace_head {σ ε : Type} (compute : JSVal → M σ ε JSVal) :
    ∀ (ss : List σ) (prev : JSVal) (tr : List (JSVal × JSVal))
      (p : JSVal × JSVal),
      hostMemoTrace compute prev ss = .ok tr → tr.get? 0 = some p →
      p.1 = prev := by
  intro ss
  cases ss with
  | nil =>
    intro prev tr p h hp
    simp only [hostMemoTrace, Except.ok.injEq] at h
    rw [← h] at hp
    simp at hp
  | cons s rest =>
    intro prev tr p h hp
    simp only [hostMemoTrace] at h
    cases hc : compute prev s with
    | error e => rw [hc] at h; simp at h
    | ok q =>
      obtain ⟨r, s₁⟩ := q
      rw [hc] at h
      dsimp only at h
      cases hq : hostMemoTrace compute r rest with
      | error e => rw [hq] at h; simp at h
      | ok tr₁ =>
        rw [hq] at h
        simp only [Except.ok.injEq] at h
        rw [← h] at hp
        simp only [List.get?_cons_zero, Option.some.injEq] at hp
        rw [← hp]

/-- Previous-value threading: each trace entry's previous value is the
    preceding entry's result. -/
theorem hostMemoTrace_chain {σ ε : Type} (compute : JSVal → M σ ε JSVal) :
    ∀ (ss : List σ) (prev : JSVal) (tr : List (JSVal × JSVal)) (i : Nat)
      (pi pj : JSVal × JSVal),
      hostMemoTrace compute prev ss = .ok tr → tr.get? i = some pi →
      tr.get? (i + 1) = some pj → pj.1 = pi.2 := by
  intro ss
  induction ss with
  | nil =>
    intro prev tr i pi pj h hpi hpj
    simp only [hostMemoTrace, Except.ok.injEq] at h
    rw [← h] at hpi
    simp at hpi
  | cons s rest ih =>
    intro prev tr i pi pj h hpi hpj
    simp only [hostMemoTrace] at h
    cases hc : compute prev s with
    | error e => rw [hc] at h; simp at h
    | ok q =>
      obtain ⟨r, s₁⟩ := q
      rw [hc] at h
      dsimp only at h
      cases hq : hostMemoTrace compute r rest with
      | error e => rw [hq] at h; simp at h
      | ok tr₁ =>
        rw [hq] at h
        simp only [Except.ok.injEq] at h
        rw [← h] at hpi hpj
        cases i with
        | zero =>
          simp only [List.get?_cons_zero, Option.some.injEq] at hpi
          simp only [List.get?_cons_succ] at hpj
          rw [← hpi]
          exact hostMemoTrace_head compute rest r tr₁ pj hq hpj
        | succ n =>
          simp only [List.get?_cons_succ] at hpi hpj
          exact ih r tr₁ n pi pj hq hpi hpj

/-- Each trace entry is produced by one invocation of the compute
    function on that tick's world, fed that entry's previous value. -/
theorem hostMemoTrace_step {σ ε : Type} (compute : JSVal → M σ ε JSVal) :
    ∀ (ss : List σ) (prev : JSVal) (tr : List (JSVal × JSVal)) (i : Nat)
      (p : JSVal × JSVal) (s : σ),
      hostMemoTrace compute prev ss = .ok tr → tr.get? i = some p →
      ss.get? i = some s → ∃ s₁, compute p.1 s = .ok (p.2, s₁) := by
  intro ss
  induction ss with
  | nil =>
    intro prev tr i p s h hp hs
    simp at hs
  | cons st rest ih =>
    intro prev tr i p s h hp hs
    simp only [hostMemoTrace] at h
    cases hc : compute prev st with
    | error e => rw [hc] at h; simp at h
    | ok q =>
      obtain ⟨r, s₁⟩ := q
      rw [hc] at h
      dsimp only at h
      cases hq : hostMemoTrace compute r rest with
      | error e => rw [hq] at h; simp at h
      | ok tr₁ =>
        rw [hq] at h
        simp only [Except.ok.injEq] at h
        rw [← h] at hp
        cases i with
        | zero =>
          simp only [List.get?_cons_zero, Option.some.injEq] at hp hs
          rw [← hp, ← hs]
          exact ⟨s₁, hc⟩
        | succ n =>
          simp only [List.get?_cons_succ] at hp hs
          exact ih r tr₁ n p s hq hp hs

/-- Claim C7: for the adapter applied to the memo-like host primitive,
    the trace has one entry per tick; the previous value seen on
    invocation 1 is the host's own initial convention (`undefined`); the
    previous value seen on invocation N+1 equals the result of whichever
    branch executed on invocation N; each invocation runs the gated
    function on that tick's world with exactly that previous value; and
    the gated function delivers the previous value uniformly to whichever
    branch runs (callback after the resolved value, fallback alone). -/
theorem adapter_previous_threading {σ ε : Type} (env : FEnv σ ε)
    (accessor : JSVal) (cb : List JSVal → M σ ε JSVal)
    (fb : Option (List JSVal → M σ ε JSVal)) (ss : List σ)
    (tr : List (JSVal × JSVal))
    (h : whenify env (createMemoModel ss) accessor cb fb = .ok tr) :
    tr.length = ss.length
  ∧ (∀ p, tr.get? 0 = some p → p.1 = JSVal.undef)
  ∧ (∀ i pi pj, tr.get? i = some pi → tr.get? (i + 1) = some pj →
      pj.1 = pi.2)
  ∧ (∀ i p s, tr.get? i = some p → ss.get? i = some s →
      ∃ s₁, when env accessor cb fb [p.1] s = .ok (p.2, s₁))
  ∧ (∀ (prev : JSVal) (s : σ) (v : JSVal) (s₁ : σ),
      resolve env accessor s = .ok (v, s₁) →
      (truthy v = true →
        when env accessor cb fb [prev] s = cb (v :: [prev]) s₁)
    ∧ (truthy v = false →
        when env accessor cb fb [prev] s =
          match fb with
          | some f => f [prev] s₁
          | none => .ok (.undef, s₁))) := by
  have h' : hostMemoTrace (fun prev => when env accessor cb fb [prev])
      JSVal.undef ss = .ok tr := h
  refine ⟨hostMemoTrace_length _ ss JSVal.undef tr h',
    fun p => hostMemoTrace_head _ ss JSVal.undef tr p h',
    fun i pi pj => hostMemoTrace_chain _ ss JSVal.undef tr i pi pj h',
    fun i p s => hostMemoTrace_step _ ss JSVal.undef tr i p s h', ?_⟩
  intro prev s v s₁ hres
  constructor
  · intro ht
    simp [when, check, hres, ht]
  · intro hv
    cases fb with
    | none => simp [when, check, hres, hv]
    | some f => simp [when, check, hres, hv]

/-- The concrete two-tick adapter trace used to witness C7: input `5`
    stays truthy, the callback returns the argument list it received, so
    each result records the value and the previous it saw. -/
def c7TraceEx : List (JSVal × JSVal) :=
  [(JSVal.undef, JSVal.arr [JSVal.num (.int 5), JSVal.undef]),
   (JSVal.arr [JSVal.num (.int 5), JSVal.undef],
    JSVal.arr [JSVal.num (.int 5),
      JSVal.arr [JSVal.num (.int 5), JSVal.undef]])]

/-- Witness for C7 at concrete inputs: a two-tick run of the adapted memo
    produces the expected trace, of length 2, whose second invocation
    sees the first invocation's result as its previous value. -/
theorem adapter_previous_threading_witness :
    whenify envU (createMemoModel [(), ()]) (JSVal.num (.int 5))
        (fun l s => .ok (.arr l, s)) none = .ok c7TraceEx
  ∧ c7TraceEx.length = 2
  ∧ Prod.fst (JSVal.arr [JSVal.num (.int 5), JSVal.undef],
        JSVal.arr [JSVal.num (.int 5),
          JSVal.arr [JSVal.num (.int 5), JSVal.undef]])
      = Prod.snd (JSVal.undef, JSVal.arr [JSVal.num (.int 5), JSVal.undef]) := by
  have h := adapter_previous_threading envU (JSVal.num (.int 5))
    (fun l s => .ok (.arr l, s)) none [(), ()] c7TraceEx rfl
  exact ⟨rfl, h.1, h.2.2.1 0 _ _ rfl rfl⟩

/-- Counterexample to claim C8: the adapter's "no previous result" state
    is the host's `undefined`, and a branch may legitimately return
    `undefined`; then the previous value delivered on the next invocation
    (the branch's own return value) is indistinguishable from the initial
    no-previous-result marker. -/
theorem adapter_initial_marker_counterexample :
    whenify envU (createMemoModel [(), ()]) (JSVal.bool true)
        (fun _ s => .ok (JSVal.undef, s)) none
      = .ok [(JSVal.undef, JSVal.undef), (JSVal.undef, JSVal.undef)]
  ∧ ([(JSVal.undef, JSVal.undef), (JSVal.undef, JSVal.undef)].get? 1).map
        Prod.fst
      = ([(JSVal.undef, JSVal.undef),
          (JSVal.undef, JSVal.undef)].get? 0).map Prod.fst := ⟨rfl, rfl⟩

/-- Claim C8 (amended): the adapter's initial previous-result state is
    the host's `undefined` marker; it is distinct from legitimate branch
    outputs such as `0` and `false`, but a branch legitimately returning
    `undefined` makes the next invocation's previous value equal to the
    initial marker — `undefined` outputs are conflated with it. -/
theorem adapter_initial_marker_amended {σ ε : Type} (env : FEnv σ ε)
    (accessor : JSVal) (cb : List JSVal → M σ ε JSVal)
    (fb : Option (List JSVal → M σ ε JSVal)) (ss : List σ)
    (tr : List (JSVal × JSVal))
    (h : whenify env (createMemoModel ss) accessor cb fb = .ok tr) :
    (∀ p, tr.get? 0 = some p → p.1 = JSVal.undef)
  ∧ (JSVal.undef ≠ JSVal.num (.int 0) ∧ JSVal.undef ≠ JSVal.bool false)
  ∧ (∀ i pi pj, tr.get? i = some pi → pi.2 = JSVal.undef →
      tr.get? (i + 1) = some pj → pj.1 = JSVal.undef) := by
  have h' : hostMemoTrace (fun prev => when env accessor cb fb [prev])
      JSVal.undef ss = .ok tr := h
  refine ⟨fun p => hostMemoTrace_head _ ss JSVal.undef tr p h', ⟨?_, ?_⟩, ?_⟩
  · intro hc
    cases hc
  · intro hc
    cases hc
  intro i pi pj hpi hund hpj
  rw [hostMemoTrace_chain _ ss JSVal.undef tr i pi pj h' hpi hpj]
  exact hund

/-- Witness for amended C8 at concrete inputs: with a callback returning
    `0`, the first invocation's previous value is the initial `undefined`
    marker, while the second invocation's previous value is `0`, a
    legitimate output distinct from the marker. -/
theorem adapter_initial_marker_amended_witness :
    whenify envU (createMemoModel [(), ()]) (JSVal.bool true)
        (fun _ s => .ok (JSVal.num (.int 0), s)) none
      = .ok [(JSVal.undef, JSVal.num (.int 0)),
             (JSVal.num (.int 0), JSVal.num (.int 0))]
  ∧ Prod.fst (JSVal.undef, JSVal.num (.int 0)) = JSVal.undef
  ∧ JSVal.undef ≠ JSVal.num (.int 0) := by
  have h := adapter_initial_marker_amended envU (JSVal.bool true)
    (fun _ s => .ok (JSVal.num (.int 0), s)) none [(), ()]
    [(JSVal.undef, JSVal.num (.int 0)),
     (JSVal.num (.int 0), JSVal.num (.int 0))] rfl
  exact ⟨rfl, h.1 _ rfl, h.2.1.1⟩

/-- Claim C10: for an adapted memo built without a fallback, an
    invocation whose input resolves falsy produces `undefined` as that
    invocation's result, and the next invocation therefore sees
    `undefined` as its previous value — the last callback result is not
    retained across a falsy interlude. -/
theorem adapter_falsy_resets_previous {σ ε : Type} (env : FEnv σ ε)
    (accessor : JSVal) (cb : List JSVal → M σ ε JSVal) (ss : List σ)
    (tr : List (JSVal × JSVal)) (i : Nat) (p : JSVal × JSVal) (s : σ)
    (v : JSVal) (s₁ : σ)
    (h : whenify env (createMemoModel ss) accessor cb none = .ok tr)
    (hp : tr.get? i = some p) (hs : ss.get? i = some s)
    (hres : resolve env accessor s = .ok (v, s₁))
    (hv : truthy v = false) :
    p.2 = JSVal.undef
  ∧ (∀ q, tr.get? (i + 1) = some q → q.1 = JSVal.undef) := by
  have h' : hostMemoTrace (fun prev => when env accessor cb none [prev])
      JSVal.undef ss = .ok tr := h
  obtain ⟨s₂, hstep⟩ := hostMemoTrace_step _ ss JSVal.undef tr i p s h' hp hs
  have hwhen : when env accessor cb none [p.1] s = .ok (JSVal.undef, s₁) := by
    simp [when, check, hres, hv]
  rw [hwhen] at hstep
  have hp2 : p.2 = JSVal.undef := by
    simp only [Except.ok.injEq, Prod.mk.injEq] at hstep
    exact hstep.1.symm
  refine ⟨hp2, ?_⟩
  intro q hq
  rw [hostMemoTrace_chain _ ss JSVal.undef tr i p q h' hp hq]
  exact hp2

/-- An environment over the world `σ = JSVal` in which every function
    reference is a producer returning the current world value. -/
def envSelf : FEnv JSVal Unit := fun _ _ s => .ok (s, s)

/-- The concrete three-tick adapter trace used to witness C10: input
    sequence 5, null, 7 with no fallback — the falsy tick yields
    `undefined` and the following tick sees `undefined` as previous. -/
def c10TraceEx : List (JSVal × JSVal) :=
  [(JSVal.undef, JSVal.arr [JSVal.num (.int 5), JSVal.undef]),
   (JSVal.arr [JSVal.num (.int 5), JSVal.undef], JSVal.undef),
   (JSVal.undef, JSVal.arr [JSVal.num (.int 7), JSVal.undef])]

/-- Witness for C10 at concrete inputs: in the 5, null, 7 run the falsy
    tick's result is `undefined` and the next tick's previous value is
    `undefined`, not the retained first result. -/
theorem adapter_falsy_resets_previous_witness :
    whenify envSelf
        (createMemoModel
          [JSVal.num (.int 5), JSVal.null, JSVal.num (.int 7)])
        (JSVal.funcV 0) (fun l st => .ok (.arr l, st)) none
      = .ok c10TraceEx
  ∧ Prod.snd (JSVal.arr [JSVal.num (.int 5), JSVal.undef], JSVal.undef)
      = JSVal.undef
  ∧ Prod.fst (JSVal.undef, JSVal.arr [JSVal.num (.int 7), JSVal.undef])
      = JSVal.undef := by
  have h := adapter_falsy_resets_previous envSelf (JSVal.funcV 0)
    (fun l st => .ok (.arr l, st))
    [JSVal.num (.int 5), JSVal.null, JSVal.num (.int 7)] c10TraceEx 1
    (JSVal.arr [JSVal.num (.int 5), JSVal.undef], JSVal.undef) JSVal.null
    JSVal.null JSVal.null rfl rfl rfl rfl rfl
  exact ⟨rfl, h.1, h.2 _ rfl⟩

end SolidWhenever
